import Mathlib

/-!
Formal model of the 2D wave-equation solver from `tests/test_wave.py`.

Scalars are modelled by `ℚ` (the source computes in floating point; the
claims under study are structural and algebraic, so exact rational
arithmetic is the faithful executable stand-in).  Device arrays are
modelled by `List ℚ`; the runtime primitives `wp.load`, `wp.store`,
`wp.clamp` and the `wp.launch` dispatch are part of the repository's
runtime, which is not included under `src/`, so they are modelled from the
spec (GridField indexing contract, §3 and §5 of the spec).  The external
sine `wp.sin(t)` is transcendental and is represented by its value at the
phase, passed as an explicit parameter.
-/

namespace WaveSim

/-- Modelled from the spec: the runtime array read `wp.load(f, i)` —
`values` is an "ordered sequence indexed y*width + x"; a list lookup with a
default for the (never exercised in the solver) out-of-range case. -/
def loadD {α : Type} (d : α) : List α → ℕ → α
  | [], _ => d
  | a :: _, 0 => a
  | _ :: t, n + 1 => loadD d t n

/-- Modelled from the spec: the runtime array write `wp.store(f, i, v)`:
replace the element at flattened index `i`. -/
def store {α : Type} : List α → ℕ → α → List α
  | [], _, _ => []
  | _ :: t, 0, v => v :: t
  | a :: t, n + 1, v => a :: store t n v

theorem length_store {α : Type} (f : List α) (i : ℕ) (v : α) :
    (store f i v).length = f.length := by
  induction f generalizing i with
  | nil => rfl
  | cons a t ih =>
    cases i with
    | zero => rfl
    | succ n => simpa [store] using ih n

theorem loadD_store_self {α : Type} (d : α) (f : List α) (i : ℕ) (v : α)
    (hi : i < f.length) : loadD d (store f i v) i = v := by
  induction f generalizing i with
  | nil => simp at hi
  | cons a t ih =>
    cases i with
    | zero => rfl
    | succ n => simpa [store, loadD] using ih n (by simpa using hi)

theorem loadD_store_ne {α : Type} (d : α) (f : List α) (i j : ℕ) (v : α)
    (hij : i ≠ j) : loadD d (store f i v) j = loadD d f j := by
  induction f generalizing i j with
  | nil => rfl
  | cons a t ih =>
    cases i with
    | zero =>
      cases j with
      | zero => exact absurd rfl hij
      | succ m => rfl
    | succ n =>
      cases j with
      | zero => rfl
      | succ m => simpa [store, loadD] using ih n m (by omega)

theorem eq_of_loadD {α : Type} (d : α) (f g : List α)
    (hlen : f.length = g.length)
    (h : ∀ i, i < f.length → loadD d f i = loadD d g i) : f = g := by
  induction f generalizing g with
  | nil => cases g with
    | nil => rfl
    | cons b u => simp at hlen
  | cons a t ih =>
    cases g with
    | nil => simp at hlen
    | cons b u =>
      have h0 : a = b := h 0 (by simp)
      have ht : t = u := by
        refine ih u (by simpa using hlen) ?_
        intro i hi
        simpa [loadD] using h (i + 1) (by simpa using Nat.succ_lt_succ hi)
      rw [h0, ht]

theorem loadD_replicate {α : Type} (d : α) (n i : ℕ) :
    loadD d (List.replicate n d) i = d := by
  induction n generalizing i with
  | zero => rfl
  | succ m ih =>
    cases i with
    | zero => rfl
    | succ k => simpa [List.replicate, loadD] using ih k

/-- Scalar array load used by the solver: `wp.load(f, i)` on a float array. -/
def load (f : List ℚ) (i : ℕ) : ℚ := loadD 0 f i

/-- Modelled from the spec: `wp.clamp(x, lo, hi)` clamps `x` into
`[lo, hi]` (spec §3: out-of-range coordinates are "clamped to
`[0, width-1] × [0, height-1]` before lookup — never an error, never
wrapped"). -/
def clamp (x lo hi : ℤ) : ℤ := min (max x lo) hi

/-- The `sample` device function of `test_wave.py`: clamp the texture
coordinates, then load at flattened index `y*width + x`. -/
def sample (f : List ℚ) (x y width height : ℤ) : ℚ :=
  let cx := clamp x 0 (width - 1)
  let cy := clamp y 0 (height - 1)
  load f (cy * width + cx).toNat

/-- The `laplacian` device function of `test_wave.py`: 5-point cross
stencil over bounds-clamped samples. -/
def laplacian (f : List ℚ) (x y width height : ℤ) : ℚ :=
  let ddx := sample f (x + 1) y width height - 2 * sample f x y width height
    + sample f (x - 1) y width height
  let ddy := sample f x (y + 1) width height - 2 * sample f x y width height
    + sample f x (y - 1) width height
  ddx + ddy

/-- Modelled from the spec: `wp.launch(kernel, dim, ...)` runs the kernel
body once for every thread id `tid` in `[0, dim)` (spec §5: the cells are
independent, "logically parallel, order-independent", so the ascending
sequential execution realizes the dispatch). -/
def runKernel {σ : Type} (body : σ → ℕ → σ) (tids : List ℕ) (st : σ) : σ :=
  tids.foldl body st

/-- Launch of a kernel over the flattened index space `[0, dim)`. -/
def launch {σ : Type} (body : σ → ℕ → σ) (dim : ℕ) (st : σ) : σ :=
  runKernel body (List.range dim) st

/-- Squared distance from cell `tid` (decomposed as `x = tid % width`,
`y = tid // width`) to the disturbance center, as computed by the
`wave_displace` kernel. -/
def wave_displace_distSq (width : ℤ) (center_x center_y : ℚ) (tid : ℕ) : ℚ :=
  let x : ℤ := (tid : ℤ) % width
  let y : ℤ := (tid : ℤ) / width
  let dx : ℚ := (x : ℚ) - center_x
  let dy : ℚ := (y : ℚ) - center_y
  dx * dx + dy * dy

/-- Per-thread body of the `wave_displace` kernel of `test_wave.py`.  The
state is the argument pair `(hcurrent, hprevious)`.  `sinT` stands for the
runtime's `wp.sin(t)` at the phase `t` (modelled from the spec: the value
stamped is "magnitude * sin(phase)"). -/
def wave_displace_body (width height : ℤ) (center_x center_y r mag sinT : ℚ)
    (st : List ℚ × List ℚ) (tid : ℕ) : List ℚ × List ℚ :=
  if wave_displace_distSq width center_x center_y tid < r * r then
    let h := mag * sinT
    (store st.1 tid h, store st.2 tid h)
  else st

/-- The `wave_displace` kernel launched over `[0, dim)`. -/
def wave_displace_launch (width height : ℤ) (center_x center_y r mag sinT : ℚ)
    (dim : ℕ) (st : List ℚ × List ℚ) : List ℚ × List ℚ :=
  launch (wave_displace_body width height center_x center_y r mag sinT) dim st

/-- Value computed by the `wave_solve` kernel for cell `tid`, reading the
buffers of `st` as they stand.  The state is the argument pair
`(hprevious, hcurrent)` — the kernel's own parameter order. -/
def wave_solve_cell (width height : ℤ) (inv_cell k_speed k_damp dt : ℚ)
    (st : List ℚ × List ℚ) (tid : ℕ) : ℚ :=
  let x : ℤ := (tid : ℤ) % width
  let y : ℤ := (tid : ℤ) / width
  let l := laplacian st.2 x y width height * inv_cell * inv_cell
  let h1 := load st.2 tid
  let h0 := load st.1 tid
  2 * h1 - h0 + dt * dt * (k_speed * l - k_damp * (h1 - h0))

/-- Per-thread body of the `wave_solve` kernel of `test_wave.py`: compute
the integrated height and store it into `hprevious` at `tid`; `hcurrent`
is only read. -/
def wave_solve_body (width height : ℤ) (inv_cell k_speed k_damp dt : ℚ)
    (st : List ℚ × List ℚ) (tid : ℕ) : List ℚ × List ℚ :=
  (store st.1 tid (wave_solve_cell width height inv_cell k_speed k_damp dt st tid), st.2)

/-- The `wave_solve` kernel launched over `[0, dim)`. -/
def wave_solve_launch (width height : ℤ) (inv_cell k_speed k_damp dt : ℚ)
    (dim : ℕ) (st : List ℚ × List ℚ) : List ℚ × List ℚ :=
  launch (wave_solve_body width height inv_cell k_speed k_damp dt) dim st

/-- Vertex type of the visualization mesh: `wp.vec3` modelled as a
rational triple. -/
def Vec3 : Type := ℚ × ℚ × ℚ

/-- Vector array load, `wp.load` on a `wp.vec3` array. -/
def loadV (f : List Vec3) (i : ℕ) : Vec3 := loadD ((0 : ℚ), (0 : ℚ), (0 : ℚ)) f i

/-- Per-thread body of the `grid_update` kernel of `test_wave.py`:
`v_new = wp.vec3(v[0], h, v[2])` stored at `tid`. -/
def grid_update_body (heights : List ℚ) (vertices : List Vec3) (tid : ℕ) : List Vec3 :=
  let h := load heights tid
  let v := loadV vertices tid
  store vertices tid (v.1, h, v.2.2)

/-- The `grid_update` kernel launched over `[0, dim)`. -/
def grid_update_launch (heights : List ℚ) (dim : ℕ) (vertices : List Vec3) : List Vec3 :=
  launch (grid_update_body heights) dim vertices

theorem runKernel_nil {σ : Type} (body : σ → ℕ → σ) (st : σ) :
    runKernel body [] st = st := rfl

theorem runKernel_cons {σ : Type} (body : σ → ℕ → σ) (t : ℕ) (l : List ℕ) (st : σ) :
    runKernel body (t :: l) st = runKernel body l (body st t) := rfl

/-- Characterization of `wave_displace` run sequentially over any
duplicate-free list of thread ids: each buffer changes exactly at the ids
inside the disturbance disk, receiving `mag * sinT`. -/
theorem wave_displace_runKernel (width height : ℤ) (cx cy r mag sinT : ℚ)
    (l : List ℕ) : ∀ st : List ℚ × List ℚ, l.Nodup →
    (runKernel (wave_displace_body width height cx cy r mag sinT) l st).1.length
        = st.1.length ∧
    (runKernel (wave_displace_body width height cx cy r mag sinT) l st).2.length
        = st.2.length ∧
    (∀ i, i < st.1.length →
      load (runKernel (wave_displace_body width height cx cy r mag sinT) l st).1 i =
        if i ∈ l ∧ wave_displace_distSq width cx cy i < r * r then mag * sinT
        else load st.1 i) ∧
    (∀ i, i < st.2.length →
      load (runKernel (wave_displace_body width height cx cy r mag sinT) l st).2 i =
        if i ∈ l ∧ wave_displace_distSq width cx cy i < r * r then mag * sinT
        else load st.2 i) := by
  induction l with
  | nil =>
    intro st _
    simp [runKernel_nil]
  | cons t l ih =>
    intro st hnd
    have htl : t ∉ l := (List.nodup_cons.mp hnd).1
    have hnd' : l.Nodup := (List.nodup_cons.mp hnd).2
    have hrun : runKernel (wave_displace_body width height cx cy r mag sinT) (t :: l) st
        = runKernel (wave_displace_body width height cx cy r mag sinT) l
            (wave_displace_body width height cx cy r mag sinT st t) :=
      runKernel_cons _ _ _ _
    obtain ⟨L1, L2, H1, H2⟩ :=
      ih (wave_displace_body width height cx cy r mag sinT st t) hnd'
    have e1 : (wave_displace_body width height cx cy r mag sinT st t).1.length
        = st.1.length := by
      by_cases hc : wave_displace_distSq width cx cy t < r * r <;>
        simp [wave_displace_body, hc, length_store]
    have e2 : (wave_displace_body width height cx cy r mag sinT st t).2.length
        = st.2.length := by
      by_cases hc : wave_displace_distSq width cx cy t < r * r <;>
        simp [wave_displace_body, hc, length_store]
    have hload1 : ∀ i, i ≠ t →
        load (wave_displace_body width height cx cy r mag sinT st t).1 i
          = load st.1 i := by
      intro i hit
      by_cases hc : wave_displace_distSq width cx cy t < r * r
      · simp only [wave_displace_body, if_pos hc]
        exact loadD_store_ne 0 st.1 t i _ (fun h => hit h.symm)
      · simp [wave_displace_body, hc]
    have hload2 : ∀ i, i ≠ t →
        load (wave_displace_body width height cx cy r mag sinT st t).2 i
          = load st.2 i := by
      intro i hit
      by_cases hc : wave_displace_distSq width cx cy t < r * r
      · simp only [wave_displace_body, if_pos hc]
        exact loadD_store_ne 0 st.2 t i _ (fun h => hit h.symm)
      · simp [wave_displace_body, hc]
    refine ⟨by rw [hrun, L1, e1], by rw [hrun, L2, e2], ?_, ?_⟩
    · intro i hi
      rw [hrun, H1 i (by rw [e1]; exact hi)]
      by_cases hit : i = t
      · subst hit
        by_cases hc : wave_displace_distSq width cx cy i < r * r
        · simp only [wave_displace_body, if_pos hc]
          rw [if_neg (fun hmem => htl hmem.1)]
          rw [if_pos ⟨List.mem_cons_self i l, hc⟩]
          exact loadD_store_self 0 st.1 i _ hi
        · simp only [hc, and_false, if_false]
          simp [wave_displace_body, hc]
      · rw [hload1 i hit]
        simp [List.mem_cons, hit]
    · intro i hi
      rw [hrun, H2 i (by rw [e2]; exact hi)]
      by_cases hit : i = t
      · subst hit
        by_cases hc : wave_displace_distSq width cx cy i < r * r
        · simp only [wave_displace_body, if_pos hc]
          rw [if_neg (fun hmem => htl hmem.1)]
          rw [if_pos ⟨List.mem_cons_self i l, hc⟩]
          exact loadD_store_self 0 st.2 i _ hi
        · simp only [hc, and_false, if_false]
          simp [wave_displace_body, hc]
      · rw [hload2 i hit]
        simp [List.mem_cons, hit]

/-- The integrated value for cell `i` depends only on the whole `hcurrent`
buffer and on `hprevious` at `i` itself. -/
theorem wave_solve_cell_congr (width height : ℤ) (ic ks kd dt : ℚ)
    (st st' : List ℚ × List ℚ) (i : ℕ) (h2 : st'.2 = st.2)
    (h1 : load st'.1 i = load st.1 i) :
    wave_solve_cell width height ic ks kd dt st' i
      = wave_solve_cell width height ic ks kd dt st i := by
  simp only [wave_solve_cell, h2, h1]

/-- Characterization of `wave_solve` run sequentially over any
duplicate-free list of thread ids: `hcurrent` is untouched, and
`hprevious` receives, at exactly the ids of the list, the value computed
from the kernel-entry state. -/
theorem wave_solve_runKernel (width height : ℤ) (ic ks kd dt : ℚ)
    (l : List ℕ) : ∀ st : List ℚ × List ℚ, l.Nodup →
    (runKernel (wave_solve_body width height ic ks kd dt) l st).2 = st.2 ∧
    (runKernel (wave_solve_body width height ic ks kd dt) l st).1.length
        = st.1.length ∧
    ∀ i, i < st.1.length →
      load (runKernel (wave_solve_body width height ic ks kd dt) l st).1 i =
        if i ∈ l then wave_solve_cell width height ic ks kd dt st i
        else load st.1 i := by
  induction l with
  | nil =>
    intro st _
    simp [runKernel_nil]
  | cons t l ih =>
    intro st hnd
    have htl : t ∉ l := (List.nodup_cons.mp hnd).1
    have hnd' : l.Nodup := (List.nodup_cons.mp hnd).2
    have hrun : runKernel (wave_solve_body width height ic ks kd dt) (t :: l) st
        = runKernel (wave_solve_body width height ic ks kd dt) l
            (wave_solve_body width height ic ks kd dt st t) :=
      runKernel_cons _ _ _ _
    obtain ⟨C2, L1, H1⟩ := ih (wave_solve_body width height ic ks kd dt st t) hnd'
    have e2 : (wave_solve_body width height ic ks kd dt st t).2 = st.2 := rfl
    have e1 : (wave_solve_body width height ic ks kd dt st t).1.length
        = st.1.length := by
      simp [wave_solve_body, length_store]
    have hload1 : ∀ i, i ≠ t →
        load (wave_solve_body width height ic ks kd dt st t).1 i = load st.1 i := by
      intro i hit
      exact loadD_store_ne 0 st.1 t i _ (fun h => hit h.symm)
    refine ⟨by rw [hrun, C2, e2], by rw [hrun, L1, e1], ?_⟩
    intro i hi
    rw [hrun, H1 i (by rw [e1]; exact hi)]
    by_cases hit : i = t
    · subst hit
      rw [if_neg htl, if_pos (List.mem_cons_self i l)]
      exact loadD_store_self 0 st.1 i _ hi
    · rw [hload1 i hit]
      have hcell : wave_solve_cell width height ic ks kd dt
          (wave_solve_body width height ic ks kd dt st t) i
            = wave_solve_cell width height ic ks kd dt st i :=
        wave_solve_cell_congr width height ic ks kd dt st _ i e2 (hload1 i hit)
      rw [hcell]
      simp [List.mem_cons, hit]

/-- Characterization of `grid_update` run sequentially over any
duplicate-free list of thread ids: the vertex at each id of the list has
its vertical component replaced by the height at the same id, other
vertices are untouched. -/
theorem grid_update_runKernel (heights : List ℚ) (l : List ℕ) :
    ∀ vertices : List Vec3, l.Nodup →
    (runKernel (grid_update_body heights) l vertices).length = vertices.length ∧
    ∀ i, i < vertices.length →
      loadV (runKernel (grid_update_body heights) l vertices) i =
        if i ∈ l then
          ((loadV vertices i).1, load heights i, (loadV vertices i).2.2)
        else loadV vertices i := by
  induction l with
  | nil =>
    intro vertices _
    simp [runKernel_nil]
  | cons t l ih =>
    intro vertices hnd
    have htl : t ∉ l := (List.nodup_cons.mp hnd).1
    have hnd' : l.Nodup := (List.nodup_cons.mp hnd).2
    have hrun : runKernel (grid_update_body heights) (t :: l) vertices
        = runKernel (grid_update_body heights) l
            (grid_update_body heights vertices t) :=
      runKernel_cons _ _ _ _
    obtain ⟨L1, H1⟩ := ih (grid_update_body heights vertices t) hnd'
    have e1 : (grid_update_body heights vertices t).length = vertices.length := by
      simp [grid_update_body, length_store]
    have hload1 : ∀ i, i ≠ t →
        loadV (grid_update_body heights vertices t) i = loadV vertices i := by
      intro i hit
      exact loadD_store_ne _ vertices t i _ (fun h => hit h.symm)
    refine ⟨by rw [hrun, L1, e1], ?_⟩
    intro i hi
    rw [hrun, H1 i (by rw [e1]; exact hi)]
    by_cases hit : i = t
    · subst hit
      rw [if_neg htl, if_pos (List.mem_cons_self i l)]
      exact loadD_store_self _ vertices i _ hi
    · rw [hload1 i hit]
      simp [List.mem_cons, hit]

theorem clamp_mem (x lo hi : ℤ) (h : lo ≤ hi) :
    lo ≤ clamp x lo hi ∧ clamp x lo hi ≤ hi :=
  ⟨le_min (le_max_right x lo) h, min_le_right _ _⟩

theorem clamp_idem (x lo hi : ℤ) (h : lo ≤ hi) :
    clamp (clamp x lo hi) lo hi = clamp x lo hi := by
  have h1 : lo ≤ min (max x lo) hi := le_min (le_max_right x lo) h
  have h2 : min (max x lo) hi ≤ hi := min_le_right _ _
  unfold clamp
  rw [max_eq_left h1, min_eq_left h2]

/-- Claim C3: for every field with `W, H ≥ 1` and every pair of integers
`x, y` (including far out-of-range values), `sample` returns the value at
flattened index `clamp(y,0,H-1)*W + clamp(x,0,W-1)`, equals the sample at
the clamped coordinates, and the flattened index it reads lies in
`[0, W*H)` — sampling never errors and never wraps. -/
theorem sample_clamps (f : List ℚ) (W H x y : ℤ) (hW : 1 ≤ W) (hH : 1 ≤ H) :
    sample f x y W H = load f (clamp y 0 (H - 1) * W + clamp x 0 (W - 1)).toNat ∧
    sample f x y W H = sample f (clamp x 0 (W - 1)) (clamp y 0 (H - 1)) W H ∧
    0 ≤ clamp y 0 (H - 1) * W + clamp x 0 (W - 1) ∧
    clamp y 0 (H - 1) * W + clamp x 0 (W - 1) < W * H := by
  have hW' : (0 : ℤ) ≤ W - 1 := by omega
  have hH' : (0 : ℤ) ≤ H - 1 := by omega
  obtain ⟨hx0, hx1⟩ := clamp_mem x 0 (W - 1) hW'
  obtain ⟨hy0, hy1⟩ := clamp_mem y 0 (H - 1) hH'
  refine ⟨rfl, ?_, ?_, ?_⟩
  · simp only [sample]
    rw [clamp_idem x 0 (W - 1) hW', clamp_idem y 0 (H - 1) hH']
  · exact add_nonneg (mul_nonneg hy0 (by omega)) hx0
  · have hmul : clamp y 0 (H - 1) * W ≤ (H - 1) * W :=
      mul_le_mul_of_nonneg_right hy1 (by omega)
    have he : (H - 1) * W = H * W - W := by ring
    have hcomm : H * W = W * H := mul_comm H W
    linarith

/-- Claim C3 witness: a concrete far-out-of-range sample on a 2×1 grid. -/
theorem sample_clamps_witness :
    sample [1, 2] 5 (-3) 2 1 = sample [1, 2] (clamp 5 0 1) (clamp (-3) 0 0) 2 1 :=
  (sample_clamps [1, 2] 2 1 5 (-3) (by decide) (by decide)).2.1

/-- Claim C1: for every cell index `i` in `[0, width*height)` with
`x = i % width`, `y = i / width`, the `wave_solve` launch writes into the
previous buffer at `i` the value
`2*h1 - h0 + dt^2 * (waveSpeed*l - damping*(h1 - h0))`, where
`h1 = current[i]`, `h0 = previous[i]` read at kernel entry and
`l = laplacian(current, x, y) / cellSpacing^2`; the current buffer is left
unchanged at every index. -/
theorem wave_solve_correct (W H : ℤ) (cs ks kd dt : ℚ) (st : List ℚ × List ℚ)
    (i : ℕ) (hi : i < (W * H).toNat) (hlen : st.1.length = (W * H).toNat) :
    load (wave_solve_launch W H (1 / cs) ks kd dt ((W * H).toNat) st).1 i =
      2 * load st.2 i - load st.1 i
        + dt ^ 2 * (ks * (laplacian st.2 ((i : ℤ) % W) ((i : ℤ) / W) W H / cs ^ 2)
            - kd * (load st.2 i - load st.1 i)) ∧
    (wave_solve_launch W H (1 / cs) ks kd dt ((W * H).toNat) st).2 = st.2 := by
  obtain ⟨Ceq, Leq, Hld⟩ := wave_solve_runKernel W H (1 / cs) ks kd dt
    (List.range ((W * H).toNat)) st (List.nodup_range _)
  constructor
  · unfold wave_solve_launch launch
    have h := Hld i (by rw [hlen]; exact hi)
    rw [if_pos (List.mem_range.mpr hi)] at h
    rw [h]
    simp only [wave_solve_cell]
    ring
  · exact Ceq

/-- Claim C1 witness: a 2×2 grid with `cellSpacing = 1`, `waveSpeed = 1`,
`damping = 0`, `dt = 1`, `previous = [10,20,30,40]`, `current = [1,2,3,4]`;
at cell 0 the laplacian of `current` is 3, so the integrator writes
`2*1 - 10 + 3 = -5`, and `current` is untouched. -/
theorem wave_solve_correct_witness :
    load (wave_solve_launch 2 2 (1 / 1) 1 0 1 ((2 * 2 : ℤ).toNat)
        ([10, 20, 30, 40], [1, 2, 3, 4])).1 0 = -5 ∧
    (wave_solve_launch 2 2 (1 / 1) 1 0 1 ((2 * 2 : ℤ).toNat)
        ([10, 20, 30, 40], [1, 2, 3, 4])).2 = [1, 2, 3, 4] := by
  have h := wave_solve_correct 2 2 1 1 0 1 ([10, 20, 30, 40], [1, 2, 3, 4]) 0
    (by decide) (by decide)
  refine ⟨?_, h.2⟩
  rw [h.1]
  norm_num [laplacian, sample, clamp, load, loadD]

/-- Claim C2: for every cell index `i` in `[0, width*height)`, the
`wave_displace` launch sets both `current[i]` and `previous[i]` to
`magnitude * sin(phase)` (here `sinT` is the runtime sine's value at the
phase) when the squared distance from `(i % width, i / width)` to the
center is strictly below `radius^2`, and leaves both buffers unchanged at
`i` otherwise.  The 4×4 concrete scenario of the claim is the witness. -/
theorem wave_displace_correct (W H : ℤ) (cx cy r mag sinT : ℚ)
    (st : List ℚ × List ℚ) (i : ℕ) (hi : i < (W * H).toNat)
    (h1 : st.1.length = (W * H).toNat) (h2 : st.2.length = (W * H).toNat) :
    load (wave_displace_launch W H cx cy r mag sinT ((W * H).toNat) st).1 i =
      (if wave_displace_distSq W cx cy i < r * r then mag * sinT
        else load st.1 i) ∧
    load (wave_displace_launch W H cx cy r mag sinT ((W * H).toNat) st).2 i =
      (if wave_displace_distSq W cx cy i < r * r then mag * sinT
        else load st.2 i) := by
  obtain ⟨L1, L2, H1, H2⟩ := wave_displace_runKernel W H cx cy r mag sinT
    (List.range ((W * H).toNat)) st (List.nodup_range _)
  constructor
  · unfold wave_displace_launch launch
    have h := H1 i (by rw [h1]; exact hi)
    rw [h]
    simp [List.mem_range.mpr hi]
  · unfold wave_displace_launch launch
    have h := H2 i (by rw [h2]; exact hi)
    rw [h]
    simp [List.mem_range.mpr hi]

/-- Claim C2 witness: the 4×4 grid of the claim, disturbance centered at
`(2,2)`, radius `1.5`, magnitude `1`, phase `-π/2` (so the sine value is
`-1`), prior value 7 everywhere: exactly the 3×3 block around the center
(squared distance `< 2.25`) receives `-1`, every other cell keeps 7. -/
theorem wave_displace_correct_witness :
    load (wave_displace_launch 4 4 2 2 (3 / 2) 1 (-1) ((4 * 4 : ℤ).toNat)
        (List.replicate 16 7, List.replicate 16 7)).1 5 = -1 ∧
    load (wave_displace_launch 4 4 2 2 (3 / 2) 1 (-1) ((4 * 4 : ℤ).toNat)
        (List.replicate 16 7, List.replicate 16 7)).2 5 = -1 ∧
    load (wave_displace_launch 4 4 2 2 (3 / 2) 1 (-1) ((4 * 4 : ℤ).toNat)
        (List.replicate 16 7, List.replicate 16 7)).1 0 = 7 := by
  have h5 := wave_displace_correct 4 4 2 2 (3 / 2) 1 (-1)
    (List.replicate 16 7, List.replicate 16 7) 5 (by decide) (by decide) (by decide)
  have h0 := wave_displace_correct 4 4 2 2 (3 / 2) 1 (-1)
    (List.replicate 16 7, List.replicate 16 7) 0 (by decide) (by decide) (by decide)
  refine ⟨?_, ?_, ?_⟩
  · rw [h5.1, if_pos (by norm_num [wave_displace_distSq])]
    norm_num
  · rw [h5.2, if_pos (by norm_num [wave_displace_distSq])]
    norm_num
  · rw [h0.1, if_neg (by norm_num [wave_displace_distSq])]
    rfl

/-- Claim C4: for both kernels, executing the per-cell body sequentially
over any permutation of `[0, dim)` produces the same final buffers as the
ascending-order launch (whose gather form from kernel-entry state is
established in `wave_solve_runKernel` / `wave_displace_runKernel`): no
cell's computation reads another cell's output within one kernel
invocation. -/
theorem kernels_order_independent (W H : ℤ) (ic ks kd dt cx cy r mag sinT : ℚ)
    (dim : ℕ) (l : List ℕ) (hperm : List.Perm l (List.range dim))
    (st st' : List ℚ × List ℚ) :
    runKernel (wave_solve_body W H ic ks kd dt) l st
      = wave_solve_launch W H ic ks kd dt dim st ∧
    runKernel (wave_displace_body W H cx cy r mag sinT) l st'
      = wave_displace_launch W H cx cy r mag sinT dim st' := by
  have hnd : l.Nodup := hperm.nodup_iff.mpr (List.nodup_range dim)
  have hmem : ∀ i : ℕ, (i ∈ l) ↔ i ∈ List.range dim := fun i => hperm.mem_iff
  constructor
  · obtain ⟨Ceq, Leq, Hld⟩ := wave_solve_runKernel W H ic ks kd dt l st hnd
    obtain ⟨Ceq', Leq', Hld'⟩ := wave_solve_runKernel W H ic ks kd dt
      (List.range dim) st (List.nodup_range dim)
    unfold wave_solve_launch launch
    refine Prod.ext_iff.mpr ⟨?_, by rw [Ceq, Ceq']⟩
    refine eq_of_loadD 0 _ _ (by rw [Leq, Leq']) ?_
    intro i hi
    have hi' : i < st.1.length := by rw [Leq] at hi; exact hi
    have g1 := Hld i hi'
    have g2 := Hld' i hi'
    by_cases hm : i ∈ l
    · rw [if_pos hm] at g1
      rw [if_pos ((hmem i).mp hm)] at g2
      exact g1.trans g2.symm
    · rw [if_neg hm] at g1
      rw [if_neg (fun hc => hm ((hmem i).mpr hc))] at g2
      exact g1.trans g2.symm
  · obtain ⟨L1, L2, H1, H2⟩ := wave_displace_runKernel W H cx cy r mag sinT l st' hnd
    obtain ⟨L1', L2', H1', H2'⟩ := wave_displace_runKernel W H cx cy r mag sinT
      (List.range dim) st' (List.nodup_range dim)
    unfold wave_displace_launch launch
    refine Prod.ext_iff.mpr ⟨?_, ?_⟩
    · refine eq_of_loadD 0 _ _ (by rw [L1, L1']) ?_
      intro i hi
      have hi' : i < st'.1.length := by rw [L1] at hi; exact hi
      have g1 := H1 i hi'
      have g2 := H1' i hi'
      simp only [load] at g1 g2
      rw [g1, g2]
      by_cases hm : i ∈ l
      · simp [hm, (hmem i).mp hm]
      · have hm2 : ¬ i < dim := fun hc => hm ((hmem i).mpr (List.mem_range.mpr hc))
        simp [hm, hm2]
    · refine eq_of_loadD 0 _ _ (by rw [L2, L2']) ?_
      intro i hi
      have hi' : i < st'.2.length := by rw [L2] at hi; exact hi
      have g1 := H2 i hi'
      have g2 := H2' i hi'
      simp only [load] at g1 g2
      rw [g1, g2]
      by_cases hm : i ∈ l
      · simp [hm, (hmem i).mp hm]
      · have hm2 : ¬ i < dim := fun hc => hm ((hmem i).mpr (List.mem_range.mpr hc))
        simp [hm, hm2]

/-- Claim C4 witness: the tid order `[2, 0, 1]` — a permutation of
`[0, 3)` — yields the same buffers as the ascending launch on concrete
3-cell states for both kernels. -/
theorem kernels_order_independent_witness :
    runKernel (wave_solve_body 3 1 1 1 0 1) [2, 0, 1] ([1, 2, 3], [4, 5, 6])
      = wave_solve_launch 3 1 1 1 0 1 3 ([1, 2, 3], [4, 5, 6]) ∧
    runKernel (wave_displace_body 3 1 1 0 (3 / 2) 2 1) [2, 0, 1] ([1, 2, 3], [4, 5, 6])
      = wave_displace_launch 3 1 1 0 (3 / 2) 2 1 3 ([1, 2, 3], [4, 5, 6]) :=
  kernels_order_independent 3 1 1 1 0 1 1 0 (3 / 2) 2 1 3 [2, 0, 1]
    (by decide) ([1, 2, 3], [4, 5, 6]) ([1, 2, 3], [4, 5, 6])

/-- The buffer-role swap of the simulation loop:
`(sim_grid0, sim_grid1) = (sim_grid1, sim_grid0)`. -/
def swap {α β : Type} (p : α × β) : β × α := (p.2, p.1)

/-- Claim C5: the buffer-role swap is a pure relabeling: after the swap,
every value previously reachable under one label is reachable under the
other, swapping twice is the identity, and no stored value is mutated by
the swap itself. -/
theorem swap_relabels (p : List ℚ × List ℚ) :
    (swap p).1 = p.2 ∧ (swap p).2 = p.1 ∧ swap (swap p) = p ∧
    ∀ i, load (swap p).1 i = load p.2 i ∧ load (swap p).2 i = load p.1 i :=
  ⟨rfl, rfl, rfl, fun _ => ⟨rfl, rfl⟩⟩

/-- The all-zero height field of `n` cells (`wp.zeros`). -/
def zeros (n : ℕ) : List ℚ := List.replicate n 0

theorem load_zeros (n i : ℕ) : load (zeros n) i = 0 :=
  loadD_replicate 0 n i

theorem length_zeros (n : ℕ) : (zeros n).length = n := by
  simp [zeros]

theorem laplacian_zeros (n : ℕ) (x y W H : ℤ) :
    laplacian (zeros n) x y W H = 0 := by
  simp only [laplacian, sample, load_zeros]
  ring

theorem wave_solve_cell_zeros (W H : ℤ) (ic ks kd dt : ℚ) (n : ℕ) (i : ℕ) :
    wave_solve_cell W H ic ks kd dt (zeros n, zeros n) i = 0 := by
  simp [wave_solve_cell, load_zeros, laplacian_zeros]

theorem wave_solve_launch_zeros (W H : ℤ) (ic ks kd dt : ℚ) (dim n : ℕ) :
    wave_solve_launch W H ic ks kd dt dim (zeros n, zeros n)
      = (zeros n, zeros n) := by
  obtain ⟨Ceq, Leq, Hld⟩ := wave_solve_runKernel W H ic ks kd dt
    (List.range dim) (zeros n, zeros n) (List.nodup_range dim)
  unfold wave_solve_launch launch
  refine Prod.ext_iff.mpr ⟨?_, Ceq⟩
  refine eq_of_loadD 0 _ _ (by rw [Leq]) ?_
  intro i hi
  have hi' : i < (zeros n).length := by rw [Leq] at hi; exact hi
  have g := Hld i hi'
  simp only [load] at g
  rw [g]
  by_cases hm : i ∈ List.range dim
  · rw [if_pos hm, wave_solve_cell_zeros]
    exact (loadD_replicate 0 n i).symm
  · rw [if_neg hm]

/-- The integrator substep used by claim C6: a `wave_solve` launch with
damping 0 followed by the buffer-role swap, iterated. -/
def solve_swap_iter (W H : ℤ) (ic ks dt : ℚ) (dim : ℕ) :
    ℕ → (List ℚ × List ℚ) → List ℚ × List ℚ
  | 0, st => st
  | k + 1, st =>
    solve_swap_iter W H ic ks dt dim k (swap (wave_solve_launch W H ic ks 0 dt dim st))

/-- Claim C6: with damping 0 and no disturbance, any number of integrator
invocations (each followed by a swap) keeps a pair of identically zero
buffers exactly zero at every cell. -/
theorem zero_state_preserved (W H : ℤ) (ic ks dt : ℚ) (dim n k : ℕ) :
    solve_swap_iter W H ic ks dt dim k (zeros n, zeros n) = (zeros n, zeros n) ∧
    ∀ i, load (solve_swap_iter W H ic ks dt dim k (zeros n, zeros n)).1 i = 0 ∧
      load (solve_swap_iter W H ic ks dt dim k (zeros n, zeros n)).2 i = 0 := by
  have main : ∀ m, solve_swap_iter W H ic ks dt dim m (zeros n, zeros n)
      = (zeros n, zeros n) := by
    intro m
    induction m with
    | zero => rfl
    | succ j ih =>
      show solve_swap_iter W H ic ks dt dim j
        (swap (wave_solve_launch W H ic ks 0 dt dim (zeros n, zeros n)))
          = (zeros n, zeros n)
      rw [wave_solve_launch_zeros]
      exact ih
  refine ⟨main k, ?_⟩
  intro i
  rw [main k]
  exact ⟨load_zeros n i, load_zeros n i⟩

/-- Immutable per-run configuration of the simulation loop (spec §3
SimulationParameters): grid dimensions, cell spacing, wave constants, time
step, frame rate and disturbance parameters.  `sinT` is the runtime sine's
value at the constant injection phase `-π/2`. -/
structure SimConfig where
  width : ℤ
  height : ℤ
  grid_size : ℚ
  k_speed : ℚ
  k_damp : ℚ
  dt : ℚ
  fps : ℚ
  radius : ℚ
  mag : ℚ
  sinT : ℚ

/-- The per-substep disturbance center of the simulation loop:
`cx = width/2 + sin(t)*width/3`, `cy = height/2 + cos(t)*height/3`, a
function of elapsed simulation time only.  The runtime's sine and cosine
(`math.sin`, `math.cos`, not under `src/`) are supplied as functions. -/
def disturbance_center (cfg : SimConfig) (sinF cosF : ℚ → ℚ) (t : ℚ) : ℚ × ℚ :=
  ((cfg.width : ℚ) / 2 + sinF t * (cfg.width : ℚ) / 3,
    (cfg.height : ℚ) / 2 + cosF t * (cfg.height : ℚ) / 3)

/-- One substep of the simulation loop of `test_wave.py`: recompute the
disturbance center from elapsed time, launch `wave_displace` on
`(sim_grid0, sim_grid1)` (its `(hcurrent, hprevious)`), launch
`wave_solve` on the result (its `(hprevious, hcurrent)`), swap the grids,
and advance simulation time by `dt`. -/
def substep (cfg : SimConfig) (sinF cosF : ℚ → ℚ)
    (st : (List ℚ × List ℚ) × ℚ) : (List ℚ × List ℚ) × ℚ :=
  let t := st.2
  let c := disturbance_center cfg sinF cosF t
  let dim := (cfg.width * cfg.height).toNat
  let s1 := wave_displace_launch cfg.width cfg.height c.1 c.2 cfg.radius cfg.mag
    cfg.sinT dim st.1
  let s2 := wave_solve_launch cfg.width cfg.height (1 / cfg.grid_size) cfg.k_speed
    cfg.k_damp cfg.dt dim s1
  (swap s2, t + cfg.dt)

/-- The simulation loop run for a given number of substeps. -/
def simRun (cfg : SimConfig) (sinF cosF : ℚ → ℚ) :
    ℕ → (List ℚ × List ℚ) × ℚ → (List ℚ × List ℚ) × ℚ
  | 0, st => st
  | k + 1, st => simRun cfg sinF cosF k (substep cfg sinF cosF st)

/-- Claim C7: two independent runs of the simulation loop with identical
configuration, identical math functions, the same number of substeps and
identical initial state produce identical height fields — every substep
(disturbance center included) is a deterministic function of its inputs,
as the loop is modelled by the pure function `simRun`. -/
theorem simRun_deterministic (cfg cfg' : SimConfig) (sinF cosF sinF' cosF' : ℚ → ℚ)
    (n n' : ℕ) (st st' : (List ℚ × List ℚ) × ℚ) (hcfg : cfg = cfg')
    (hsin : sinF = sinF') (hcos : cosF = cosF') (hn : n = n') (hst : st = st') :
    simRun cfg sinF cosF n st = simRun cfg' sinF' cosF' n' st' := by
  subst hcfg; subst hsin; subst hcos; subst hn; subst hst
  rfl

/-- Claim C7 witness: a concrete 2×2 configuration run twice for one
substep from the same initial buffers. -/
theorem simRun_deterministic_witness :
    simRun ⟨2, 2, 1, 1, 0, 1, 60, 3 / 2, 1, -1⟩ (fun _ => 0) (fun _ => 1) 1
        (([0, 0, 0, 0], [0, 0, 0, 0]), 0)
      = simRun ⟨2, 2, 1, 1, 0, 1, 60, 3 / 2, 1, -1⟩ (fun _ => 0) (fun _ => 1) 1
        (([0, 0, 0, 0], [0, 0, 0, 0]), 0) :=
  simRun_deterministic ⟨2, 2, 1, 1, 0, 1, 60, 3 / 2, 1, -1⟩
    ⟨2, 2, 1, 1, 0, 1, 60, 3 / 2, 1, -1⟩ (fun _ => 0) (fun _ => 1)
    (fun _ => 0) (fun _ => 1) 1 1 (([0, 0, 0, 0], [0, 0, 0, 0]), 0)
    (([0, 0, 0, 0], [0, 0, 0, 0]), 0) rfl rfl rfl rfl rfl

/-- Modelled from the spec (§7 (a)): the error taxonomy of eager
configuration validation — invalid dimensions, non-positive
spacing/step/fps, or mismatched buffer sizes.  The validation code itself
is part of the runtime, not under `src/`. -/
inductive ConfigurationError where
  | invalidDimensions : ConfigurationError
  | nonPositiveSpacing : ConfigurationError
  | nonPositiveTimeStep : ConfigurationError
  | nonPositiveFps : ConfigurationError
  | bufferSizeMismatch : ConfigurationError
deriving DecidableEq

/-- Modelled from the spec: eager configuration validation, "detected
eagerly before any kernel runs, never recovered, surfaced to the caller
immediately" (spec §7), checking positivity of dimensions, spacing, time
step and fps and that both buffers have `width*height` cells. -/
def checkConfig (cfg : SimConfig) (g0 g1 : List ℚ) : Except ConfigurationError Unit :=
  if cfg.width ≤ 0 ∨ cfg.height ≤ 0 then .error .invalidDimensions
  else if cfg.grid_size ≤ 0 then .error .nonPositiveSpacing
  else if cfg.dt ≤ 0 then .error .nonPositiveTimeStep
  else if cfg.fps ≤ 0 then .error .nonPositiveFps
  else if g0.length ≠ (cfg.width * cfg.height).toNat
      ∨ g1.length ≠ (cfg.width * cfg.height).toNat then .error .bufferSizeMismatch
  else .ok ()

/-- Validity of a configuration together with its two buffers. -/
def validConfig (cfg : SimConfig) (g0 g1 : List ℚ) : Prop :=
  0 < cfg.width ∧ 0 < cfg.height ∧ 0 < cfg.grid_size ∧ 0 < cfg.dt ∧ 0 < cfg.fps ∧
    g0.length = (cfg.width * cfg.height).toNat ∧
    g1.length = (cfg.width * cfg.height).toNat

/-- Modelled from the spec: a run validates its configuration first and
only then enters the simulation loop; an invalid configuration is
surfaced as a `ConfigurationError` and the loop is never reached. -/
def runSimulation (cfg : SimConfig) (sinF cosF : ℚ → ℚ) (n : ℕ)
    (g0 g1 : List ℚ) : Except ConfigurationError ((List ℚ × List ℚ) × ℚ) :=
  match checkConfig cfg g0 g1 with
  | .error e => .error e
  | .ok _ => .ok (simRun cfg sinF cosF n ((g0, g1), 0))

/-- Claim C8: an invalid configuration — non-positive grid dimension,
cell spacing, time step or fps, or mismatched buffer sizes — makes the
run fail at configuration time: `runSimulation` surfaces the error the
eager check produced and never returns a simulated state. -/
theorem config_fail_fast (cfg : SimConfig) (sinF cosF : ℚ → ℚ) (n : ℕ)
    (g0 g1 : List ℚ) (h : ¬ validConfig cfg g0 g1) :
    ∃ e, runSimulation cfg sinF cosF n g0 g1 = .error e ∧
      checkConfig cfg g0 g1 = .error e := by
  cases hE : checkConfig cfg g0 g1 with
  | error e =>
    refine ⟨e, ?_, rfl⟩
    simp [runSimulation, hE]
  | ok u =>
    exfalso
    apply h
    unfold checkConfig at hE
    split_ifs at hE with h1 h2 h3 h4 h5
    push_neg at h1 h5
    exact ⟨h1.1, h1.2, lt_of_not_le h2, lt_of_not_le h3, lt_of_not_le h4,
      h5.1, h5.2⟩

/-- Claim C8 witness: a configuration with `width = 0` is rejected before
the loop runs. -/
theorem config_fail_fast_witness :
    ∃ e, runSimulation ⟨0, 2, 1, 1, 0, 1, 60, 3 / 2, 1, -1⟩ (fun _ => 0)
        (fun _ => 0) 3 [] [] = .error e ∧
      checkConfig ⟨0, 2, 1, 1, 0, 1, 60, 3 / 2, 1, -1⟩ [] [] = .error e :=
  config_fail_fast ⟨0, 2, 1, 1, 0, 1, 60, 3 / 2, 1, -1⟩ (fun _ => 0) (fun _ => 0)
    3 [] [] (fun hv => absurd hv.1 (lt_irrefl 0))

/-- Claim C9: the `grid_update` launch changes only the vertical component
of each vertex: for every vertex index `i` in `[0, dim)`, the resulting
vertex is `(v[0], heights[i], v[2])`, so the first and third components
are unchanged and the vertical one is the settled height at `i`. -/
theorem grid_update_vertical_only (heights : List ℚ) (vertices : List Vec3)
    (dim i : ℕ) (hi : i < dim) (hlen : i < vertices.length) :
    loadV (grid_update_launch heights dim vertices) i
      = ((loadV vertices i).1, load heights i, (loadV vertices i).2.2) ∧
    (loadV (grid_update_launch heights dim vertices) i).1 = (loadV vertices i).1 ∧
    (loadV (grid_update_launch heights dim vertices) i).2.2
      = (loadV vertices i).2.2 ∧
    (loadV (grid_update_launch heights dim vertices) i).2.1 = load heights i ∧
    (grid_update_launch heights dim vertices).length = vertices.length := by
  obtain ⟨Leq, Hld⟩ := grid_update_runKernel heights (List.range dim) vertices
    (List.nodup_range dim)
  have g := Hld i hlen
  rw [if_pos (List.mem_range.mpr hi)] at g
  have gl : loadV (grid_update_launch heights dim vertices) i
      = ((loadV vertices i).1, load heights i, (loadV vertices i).2.2) := g
  exact ⟨gl, by rw [gl], by rw [gl], by rw [gl], Leq⟩

/-- Claim C9 witness: a concrete three-vertex mesh; vertex 1 keeps its
horizontal components and takes height `5`. -/
theorem grid_update_vertical_only_witness :
    loadV (grid_update_launch [4, 5, 6] 3 [(1, 2, 3), (10, 20, 30), (7, 8, 9)]) 1
      = ((loadV [((1 : ℚ), (2 : ℚ), (3 : ℚ)), (10, 20, 30), (7, 8, 9)] 1).1,
          load [4, 5, 6] 1,
          (loadV [((1 : ℚ), (2 : ℚ), (3 : ℚ)), (10, 20, 30), (7, 8, 9)] 1).2.2) :=
  (grid_update_vertical_only [4, 5, 6] [(1, 2, 3), (10, 20, 30), (7, 8, 9)] 3 1
    (by decide) (by decide)).1

/-- Claim C10: the injection disk depends only on the squared radius: a
negative radius stamps exactly the cells its absolute value stamps, and
radius 0 stamps no cell at all, leaving both buffers entirely unchanged. -/
theorem wave_displace_radius_sign (W H : ℤ) (cx cy r mag sinT : ℚ) (dim : ℕ)
    (st : List ℚ × List ℚ) :
    wave_displace_launch W H cx cy (-r) mag sinT dim st
      = wave_displace_launch W H cx cy r mag sinT dim st ∧
    wave_displace_launch W H cx cy 0 mag sinT dim st = st := by
  constructor
  · have hb : wave_displace_body W H cx cy (-r) mag sinT
        = wave_displace_body W H cx cy r mag sinT := by
      funext s tid
      simp [wave_displace_body, neg_mul_neg]
    unfold wave_displace_launch launch runKernel
    rw [hb]
  · have hb : ∀ (s : List ℚ × List ℚ) (tid : ℕ),
        wave_displace_body W H cx cy 0 mag sinT s tid = s := by
      intro s tid
      have hnn : (0 : ℚ) ≤ wave_displace_distSq W cx cy tid :=
        add_nonneg (mul_self_nonneg _) (mul_self_nonneg _)
      have h0 : ¬ wave_displace_distSq W cx cy tid < 0 * 0 := by
        rw [mul_zero]
        exact not_lt.mpr hnn
      simp only [wave_displace_body]
      rw [if_neg h0]
    have hfold : ∀ (L : List ℕ) (s : List ℚ × List ℚ),
        L.foldl (wave_displace_body W H cx cy 0 mag sinT) s = s := by
      intro L
      induction L with
      | nil => intro s; rfl
      | cons a L ih =>
        intro s
        rw [List.foldl_cons, hb s a]
        exact ih s
    exact hfold (List.range dim) st

end WaveSim
